import Mathlib

/-!
Shallow embedding of `playfair-rs` (`src/lib.rs`): the Playfair cipher.

Rust strings are modelled as `List Char` (Unicode scalar values), byte
vectors (`Vec<u8>`) as `List Nat` with values `< 256`.  A fallible Rust
computation is modelled with `Except PFail`, where `PFail.retNone` models
the function returning `Option::None` and `PFail.crash` models a Rust
panic (an out-of-bounds `Vec` index).
-/

namespace Playfair

/-- Failure outcomes of the Rust functions: `retNone` models returning
`Option::None`; `crash` models a panic from an out-of-bounds index. -/
inductive PFail where
  | retNone
  | crash
deriving DecidableEq, Repr

/-- Result of a fallible Rust computation. -/
abbrev PRes (α : Type) := Except PFail α

/-- Models Rust `char::is_alphabetic` (the Unicode `Alphabetic` property).
Exact on all ASCII characters.  Of the non-ASCII characters, only
U+00E9 (latin small letter e with acute) and U+026A (latin letter small
capital i) are modelled (both are category Ll, hence alphabetic); every
other non-ASCII character is approximated as non-alphabetic, and every
theorem quantifying over strings restricts its characters accordingly. -/
def rustIsAlphabetic (c : Char) : Bool :=
  decide ((65 ≤ c.toNat ∧ c.toNat ≤ 90) ∨ (97 ≤ c.toNat ∧ c.toNat ≤ 122) ∨
    c.toNat = 233 ∨ c.toNat = 618)

/-- Models Rust `char::to_lowercase` as used by `str::to_lowercase`:
ASCII uppercase maps to ASCII lowercase, exact on all ASCII characters.
U+00E9 and U+026A are already lowercase and map to themselves, which the
`else` branch yields; other non-ASCII characters are approximated as
case-invariant (theorems restrict their character ranges accordingly). -/
def rustToLowerChar (c : Char) : List Char :=
  if 65 ≤ c.toNat ∧ c.toNat ≤ 90 then [Char.ofNat (c.toNat + 32)] else [c]

/-- Models Rust `str::to_lowercase` (character-wise concatenation). -/
def rustToLower (s : List Char) : List Char :=
  s.flatMap rustToLowerChar

/-- Number of bytes of the UTF-8 encoding of one character. -/
def utf8Size (c : Char) : Nat :=
  if c.toNat < 128 then 1
  else if c.toNat < 2048 then 2
  else if c.toNat < 65536 then 3
  else 4

/-- Models Rust `str::len`: the length of a string in UTF-8 bytes. -/
def rustStrLen (s : List Char) : Nat :=
  (s.map utf8Size).sum

/-- Models Rust `c as u8`: truncation of the scalar value to one byte. -/
def asU8 (c : Char) : Nat :=
  c.toNat % 256

/-- The 'j' → 'i' replacement performed by `update_key` and by the
plaintext normalization in `encrypt`. -/
def foldChar (c : Char) : Char :=
  if c = 'j' then 'i' else c

/-- Models the `update_key` closure in `generate_key`: fold 'j' to 'i',
then append the byte to the key if it is not already present. -/
def updateKey (c : Char) (key : List Nat) : List Nat :=
  let b := asU8 (foldChar c)
  if b ∈ key then key else key ++ [b]

/-- The alphabet range `'a'..='z'` iterated by `generate_key`. -/
def alphabetChars : List Char :=
  String.toList "abcdefghijklmnopqrstuvwxyz"

/-- Models `generate_key`: scan the lowercased, alphabetic-filtered
keyword through `update_key`, then scan the alphabet `'a'..='z'`. -/
def generate_key (keyword : List Char) : List Nat :=
  alphabetChars.foldl (fun k c => updateKey c k)
    (((rustToLower keyword).filter rustIsAlphabetic).foldl
      (fun k c => updateKey c k) [])

/-- Models the plaintext normalization in `encrypt`: lowercase, keep
alphabetic characters, fold 'j' to 'i', cast each character to `u8`. -/
def normalizeEnc (p : List Char) : List Nat :=
  ((rustToLower p).filter rustIsAlphabetic).map (fun c => asU8 (foldChar c))

/-- Models the ciphertext normalization in `decrypt`: lowercase, keep
alphabetic characters, cast to `u8` (no 'j' folding). -/
def normalizeDec (p : List Char) : List Nat :=
  ((rustToLower p).filter rustIsAlphabetic).map (fun c => asU8 c)

/-- Models `Vec::insert(i, x)` (for the in-bounds indices it is used at). -/
def insertAt : Nat → Nat → List Nat → List Nat
  | 0, x, l => x :: l
  | _ + 1, x, [] => [x]
  | n + 1, x, a :: l => a :: insertAt n x l

/-- One step of the duplicate-separation loop in `encrypt`:
`if plaintext.get(i + 1) == Some(&plaintext[i]) { plaintext.insert(i + 1, pad) }`.
The `none` case of `p.get? i` is unreachable (the loop index is below the
original length and insertions only grow the vector). -/
def dupStep (pad : Nat) (p : List Nat) (i : Nat) : List Nat :=
  match p[i]? with
  | some a => if p[i + 1]? = some a then insertAt (i + 1) pad p else p
  | none => p

/-- Models the duplicate-separation loop in `encrypt`:
`(0..plaintext.len()).step_by(2).for_each(...)`.  The index range is
computed once, from the length of the vector before any insertion. -/
def dupPass (pad : Nat) (p : List Nat) : List Nat :=
  (List.range' 0 ((p.length + 1) / 2) 2).foldl (dupStep pad) p

/-- The plaintext stream fed to the digram transform of `encrypt`:
the duplicate-separation pass followed by the odd-length pad push. -/
def paddedStream (pad : Nat) (p : List Nat) : List Nat :=
  let q := dupPass pad p
  if q.length % 2 ≠ 0 then q ++ [pad] else q

/-- Models `key.iter().position(|&c| c == x)`. -/
def findPos (key : List Nat) (x : Nat) : Option Nat :=
  match key with
  | [] => none
  | c :: rest => if c = x then some 0 else (findPos rest x).map (· + 1)

/-- A key-square position lookup; `None` propagates via `?` as the
function's `None` result. -/
def posLookup (key : List Nat) (x : Nat) : PRes Nat :=
  match findPos key x with
  | some i => .ok i
  | none => .error .retNone

/-- Models `key[i]`: an out-of-bounds index is a Rust panic. -/
def keyIdx (key : List Nat) (i : Nat) : PRes Nat :=
  match key[i]? with
  | some v => .ok v
  | none => .error .crash

/-- Models the digram transformation of `encrypt` at positions `yx1`,
`yx2`: rectangle swap, or same-row right shift, or same-column down
shift; the final (unreachable) `else` pushes nothing. -/
def encPairOut (key : List Nat) (yx1 yx2 : Nat) : PRes (List Nat) :=
  let y1 := yx1 / 5
  let x1 := yx1 % 5
  let y2 := yx2 / 5
  let x2 := yx2 % 5
  if y1 ≠ y2 ∧ x1 ≠ x2 then
    match keyIdx key (y1 * 5 + x2), keyIdx key (y2 * 5 + x1) with
    | .ok c, .ok d => .ok [c, d]
    | .error e, _ => .error e
    | _, .error e => .error e
  else if y1 = y2 then
    match keyIdx key (y1 * 5 + (x1 + 1) % 5), keyIdx key (y2 * 5 + (x2 + 1) % 5) with
    | .ok c, .ok d => .ok [c, d]
    | .error e, _ => .error e
    | _, .error e => .error e
  else if x1 = x2 then
    match keyIdx key ((y1 + 1) % 5 * 5 + x1), keyIdx key ((y2 + 1) % 5 * 5 + x2) with
    | .ok c, .ok d => .ok [c, d]
    | .error e, _ => .error e
    | _, .error e => .error e
  else .ok []

/-- Models the digram transformation of `decrypt`: rectangle swap, or
same-row left shift (`(x + 5 - 1) % 5`), or same-column up shift. -/
def decPairOut (key : List Nat) (yx1 yx2 : Nat) : PRes (List Nat) :=
  let y1 := yx1 / 5
  let x1 := yx1 % 5
  let y2 := yx2 / 5
  let x2 := yx2 % 5
  if y1 ≠ y2 ∧ x1 ≠ x2 then
    match keyIdx key (y1 * 5 + x2), keyIdx key (y2 * 5 + x1) with
    | .ok c, .ok d => .ok [c, d]
    | .error e, _ => .error e
    | _, .error e => .error e
  else if y1 = y2 then
    match keyIdx key (y1 * 5 + (x1 + 5 - 1) % 5), keyIdx key (y2 * 5 + (x2 + 5 - 1) % 5) with
    | .ok c, .ok d => .ok [c, d]
    | .error e, _ => .error e
    | _, .error e => .error e
  else if x1 = x2 then
    match keyIdx key ((y1 + 5 - 1) % 5 * 5 + x1), keyIdx key ((y2 + 5 - 1) % 5 * 5 + x2) with
    | .ok c, .ok d => .ok [c, d]
    | .error e, _ => .error e
    | _, .error e => .error e
  else .ok []

/-- Models the digram loop `for i in (0..len).step_by(2)` of `encrypt`
and `decrypt`, two elements at a time.  A trailing singleton corresponds
to the loop body reading index `i + 1 = len`: the first position lookup
runs (its `None` short-circuits the call), then `v[i + 1]` panics. -/
def pairLoop (f : List Nat → Nat → Nat → PRes (List Nat)) (key : List Nat) :
    List Nat → PRes (List Nat)
  | [] => .ok []
  | [a] =>
    match posLookup key a with
    | .error e => .error e
    | .ok _ => .error .crash
  | a :: b :: rest =>
    match posLookup key a with
    | .error e => .error e
    | .ok i =>
      match posLookup key b with
      | .error e => .error e
      | .ok j =>
        match f key i j with
        | .error e => .error e
        | .ok out =>
          match pairLoop f key rest with
          | .error e => .error e
          | .ok outs => .ok (out ++ outs)

/-- Number of continuation bytes demanded by a UTF-8 leading byte;
`0` marks an invalid leading byte (`0x80..=0xC1`, `0xF5..`). -/
def utf8TailLen (b : Nat) : Nat :=
  if 194 ≤ b ∧ b ≤ 223 then 1
  else if 224 ≤ b ∧ b ≤ 239 then 2
  else if 240 ≤ b ∧ b ≤ 244 then 3
  else 0

/-- Lower bound on the first continuation byte (rejects overlong forms). -/
def utf8Lo (b : Nat) : Nat :=
  if b = 224 then 160 else if b = 240 then 144 else 128

/-- Upper bound on the first continuation byte (rejects surrogates and
scalar values above U+10FFFF). -/
def utf8Hi (b : Nat) : Nat :=
  if b = 237 then 159 else if b = 244 then 143 else 191

/-- UTF-8 validation as a byte-wise state machine: `n` is the number of
continuation bytes still expected, `lo`/`hi` bound the next byte when
`n > 0`.  A leading byte installs its class via `utf8TailLen`, `utf8Lo`
and `utf8Hi`; a truncated sequence at the end is invalid. -/
def utf8Scan : Nat → Nat → Nat → List Nat → Bool
  | 0, _, _, [] => true
  | _ + 1, _, _, [] => false
  | 0, _, _, b :: r =>
    if b < 128 then utf8Scan 0 128 191 r
    else if utf8TailLen b = 0 then false
    else utf8Scan (utf8TailLen b) (utf8Lo b) (utf8Hi b) r
  | n + 1, lo, hi, b :: r =>
    if lo ≤ b ∧ b ≤ hi then utf8Scan n 128 191 r else false

/-- Models `String::from_utf8(v).is_ok()`: strict UTF-8 validity of a
byte sequence (RFC 3629 ranges, surrogates and overlong forms rejected). -/
def validUtf8 (l : List Nat) : Bool :=
  utf8Scan 0 128 191 l

/-- Models `encrypt(keyword, plaintext, pad)`.  On success the result is
the ciphertext as its byte sequence (`String::from_utf8` succeeded). -/
def encrypt (keyword plaintext : List Char) (pad : Char) : PRes (List Nat) :=
  let key := generate_key keyword
  let p := paddedStream (asU8 pad) (normalizeEnc plaintext)
  match pairLoop encPairOut key p with
  | .error e => .error e
  | .ok c => if validUtf8 c then .ok c else .error .retNone

/-- Models `decrypt(keyword, ciphertext)`.  Note the odd-length check is
on the raw UTF-8 byte length of the ciphertext argument, before
normalization. -/
def decrypt (keyword ciphertext : List Char) : PRes (List Nat) :=
  if rustStrLen ciphertext % 2 ≠ 0 then .error .retNone
  else
    let c := normalizeDec ciphertext
    let key := generate_key keyword
    match pairLoop decPairOut key c with
    | .error e => .error e
    | .ok p => if validUtf8 p then .ok p else .error .retNone

/-! ### Basic helper lemmas -/

/-- Induction on a list two elements at a time. -/
def twoStepInduction {motive : List Nat → Prop} (h0 : motive [])
    (h1 : ∀ a, motive [a]) (h2 : ∀ a b l, motive l → motive (a :: b :: l)) :
    ∀ l, motive l
  | [] => h0
  | [a] => h1 a
  | a :: b :: l => h2 a b l (twoStepInduction h0 h1 h2 l)

theorem toNat_ofNat {n : Nat} (h : n < 55296) : (Char.ofNat n).toNat = n := by
  unfold Char.ofNat
  split
  · rfl
  · rename_i hv
    exact absurd (Or.inl h) hv

theorem memOfGet {l : List Nat} {n : Nat} {a : Nat} (h : l[n]? = some a) :
    a ∈ l := by
  obtain ⟨hl, rfl⟩ := List.getElem?_eq_some.mp h
  exact List.getElem_mem hl

theorem findPos_eq_some {key : List Nat} {x : Nat} {i : Nat}
    (h : findPos key x = some i) : key[i]? = some x := by
  induction key generalizing i with
  | nil => simp [findPos] at h
  | cons c rest ih =>
    rw [findPos] at h
    by_cases hc : c = x
    · simp [hc] at h
      subst hc
      simp [← h]
    · simp [hc] at h
      obtain ⟨k, hk, rfl⟩ := h
      simpa using ih hk

theorem findPos_lt {key : List Nat} {x : Nat} {i : Nat}
    (h : findPos key x = some i) : i < key.length :=
  (List.getElem?_eq_some.mp (findPos_eq_some h)).1

theorem findPos_of_mem {key : List Nat} {x : Nat} :
    x ∈ key → ∃ i, findPos key x = some i := by
  induction key with
  | nil => intro h; simp at h
  | cons c rest ih =>
    intro h
    by_cases hc : c = x
    · exact ⟨0, by simp [findPos, hc]⟩
    · rcases List.mem_cons.mp h with h | h
      · exact absurd h.symm hc
      · obtain ⟨i, hi⟩ := ih h
        exact ⟨i + 1, by simp [findPos, hc, hi]⟩

theorem findPos_eq_none {key : List Nat} {x : Nat}
    (h : findPos key x = none) : x ∉ key := by
  intro hx
  obtain ⟨i, hi⟩ := findPos_of_mem hx
  rw [h] at hi
  exact Option.noConfusion hi

theorem findPos_get {key : List Nat} {x : Nat} {i : Nat} (hnd : key.Nodup) :
    key[i]? = some x → findPos key x = some i := by
  induction key generalizing i with
  | nil => intro h; simp at h
  | cons c rest ih =>
    intro h
    rcases List.nodup_cons.mp hnd with ⟨hc, hrest⟩
    match i with
    | 0 =>
      rw [List.getElem?_cons_zero] at h
      simp [findPos, Option.some.inj h]
    | i + 1 =>
      rw [List.getElem?_cons_succ] at h
      have hx : x ∈ rest := memOfGet h
      have hne : c ≠ x := fun hcx => hc (hcx ▸ hx)
      simp [findPos, hne, ih hrest h]

theorem posLookup_ok {key : List Nat} {x : Nat} {i : Nat}
    (h : findPos key x = some i) : posLookup key x = .ok i := by
  simp [posLookup, h]

theorem keyIdx_ok {key : List Nat} {i : Nat} (h : i < key.length) :
    ∃ v, keyIdx key i = .ok v ∧ key[i]? = some v := by
  rcases hv : key[i]? with _ | v
  · exact absurd (List.getElem?_eq_none_iff.mp hv) (Nat.not_le.mpr h)
  · exact ⟨v, by simp [keyIdx, hv], rfl⟩

theorem insertAt_length (n x : Nat) (l : List Nat) :
    (insertAt n x l).length = l.length + 1 := by
  induction l generalizing n with
  | nil => cases n <;> rfl
  | cons a l ih =>
    cases n with
    | zero => rfl
    | succ n => simpa [insertAt] using ih n

theorem insertAt_mem (n x : Nat) (l : List Nat) : x ∈ insertAt n x l := by
  induction l generalizing n with
  | nil => cases n <;> simp [insertAt]
  | cons a l ih =>
    cases n with
    | zero => simp [insertAt]
    | succ n => simp [insertAt, ih n]

theorem insertAt_mem_of_mem {b : Nat} (n x : Nat) {l : List Nat} (h : b ∈ l) :
    b ∈ insertAt n x l := by
  induction l generalizing n with
  | nil => simp at h
  | cons a l ih =>
    cases n with
    | zero =>
      exact List.mem_cons_of_mem x h
    | succ n =>
      rcases List.mem_cons.mp h with h | h
      · simp [insertAt, h]
      · simp [insertAt, ih n h]

/-! ### Key square invariants -/

theorem char_eq_of_toNat {c d : Char} (h : c.toNat = d.toNat) : c = d :=
  Char.eq_of_val_eq (UInt32.eq_of_val_eq (Fin.ext h))

theorem updateKey_eq (c : Char) (key : List Nat) :
    updateKey c key =
      if asU8 (foldChar c) ∈ key then key else key ++ [asU8 (foldChar c)] := rfl

theorem mem_updateKey_of_mem {b : Nat} {key : List Nat} (c : Char) (h : b ∈ key) :
    b ∈ updateKey c key := by
  rw [updateKey_eq]
  split
  · exact h
  · exact List.mem_append_left _ h

theorem mem_updateKey_self (c : Char) (key : List Nat) :
    asU8 (foldChar c) ∈ updateKey c key := by
  rw [updateKey_eq]
  split
  · assumption
  · exact List.mem_append_right _ (List.mem_singleton.mpr rfl)

theorem updateKey_nodup {key : List Nat} (c : Char) (h : key.Nodup) :
    (updateKey c key).Nodup := by
  rw [updateKey_eq]
  split
  · exact h
  · rw [List.nodup_append]
    refine ⟨h, List.nodup_singleton _, ?_⟩
    intro a ha hb
    rw [List.mem_singleton] at hb
    subst hb
    exact absurd ha (by assumption)

theorem mem_updateKey {b : Nat} {key : List Nat} {c : Char}
    (h : b ∈ updateKey c key) : b ∈ key ∨ b = asU8 (foldChar c) := by
  rw [updateKey_eq] at h
  split at h
  · exact Or.inl h
  · rcases List.mem_append.mp h with h | h
    · exact Or.inl h
    · exact Or.inr (List.mem_singleton.mp h)

theorem foldl_updateKey_mem_mono {b : Nat} {key : List Nat} (cs : List Char)
    (h : b ∈ key) : b ∈ cs.foldl (fun k c => updateKey c k) key := by
  induction cs generalizing key with
  | nil => exact h
  | cons c cs ih => exact ih (mem_updateKey_of_mem c h)

theorem foldl_updateKey_mem_self {c : Char} {cs : List Char} (key : List Nat)
    (h : c ∈ cs) : asU8 (foldChar c) ∈ cs.foldl (fun k c => updateKey c k) key := by
  induction cs generalizing key with
  | nil => simp at h
  | cons d cs ih =>
    rcases List.mem_cons.mp h with h | h
    · subst h
      exact foldl_updateKey_mem_mono cs (mem_updateKey_self c key)
    · exact ih _ h

theorem foldl_updateKey_nodup {key : List Nat} (cs : List Char) (h : key.Nodup) :
    (cs.foldl (fun k c => updateKey c k) key).Nodup := by
  induction cs generalizing key with
  | nil => exact h
  | cons c cs ih => exact ih (updateKey_nodup c h)

theorem mem_foldl_updateKey {b : Nat} {key : List Nat} {cs : List Char}
    (h : b ∈ cs.foldl (fun k c => updateKey c k) key) :
    b ∈ key ∨ ∃ c ∈ cs, b = asU8 (foldChar c) := by
  induction cs generalizing key with
  | nil => exact Or.inl h
  | cons c cs ih =>
    rcases ih h with h' | ⟨d, hd, hb⟩
    · rcases mem_updateKey h' with h'' | h''
      · exact Or.inl h''
      · exact Or.inr ⟨c, List.mem_cons_self c cs, h''⟩
    · exact Or.inr ⟨d, List.mem_cons_of_mem c hd, hb⟩

theorem foldChar_range {c : Char} (h1 : 97 ≤ c.toNat) (h2 : c.toNat ≤ 122) :
    97 ≤ (foldChar c).toNat ∧ (foldChar c).toNat ≤ 122 ∧ (foldChar c).toNat ≠ 106 := by
  unfold foldChar
  by_cases hc : c = 'j'
  · simp [hc]
  · have : c.toNat ≠ 106 := fun h => hc (char_eq_of_toNat h)
    simp [hc]
    omega

theorem asU8_eq {c : Char} (h : c.toNat < 256) : asU8 c = c.toNat :=
  Nat.mod_eq_of_lt h

theorem mem_lowerFilter_range {s : List Char} (hs : ∀ c ∈ s, c.toNat < 128) :
    ∀ c ∈ (rustToLower s).filter rustIsAlphabetic,
      97 ≤ c.toNat ∧ c.toNat ≤ 122 := by
  intro c hc
  rcases List.mem_filter.mp hc with ⟨hmem, halpha⟩
  obtain ⟨a, ha, hca⟩ := List.mem_flatMap.mp hmem
  have ha128 : a.toNat < 128 := hs a ha
  unfold rustToLowerChar at hca
  split at hca
  · rename_i hup
    rw [List.mem_singleton] at hca
    subst hca
    rw [toNat_ofNat (by omega)]
    omega
  · rename_i hup
    rw [List.mem_singleton] at hca
    subst hca
    unfold rustIsAlphabetic at halpha
    rw [decide_eq_true_iff] at halpha
    rcases halpha with h | h | h | h <;> omega

theorem alphabetChars_range : ∀ c ∈ alphabetChars, 97 ≤ c.toNat ∧ c.toNat ≤ 122 := by
  decide

theorem alphabetChars_complete :
    ∀ b, b < 123 → 97 ≤ b → b ≠ 106 → ∃ c ∈ alphabetChars, asU8 (foldChar c) = b := by
  decide

/-- The set of bytes a Playfair key square is made of: lowercase ASCII
letters with 'j' removed. -/
def alpha25 : Finset Nat := (Finset.Icc 97 122).erase 106

theorem generate_key_ascii {kw : List Char} (hkw : ∀ c ∈ kw, c.toNat < 128) :
    (generate_key kw).Nodup ∧ (generate_key kw).length = 25 ∧
    (∀ b ∈ generate_key kw, 97 ≤ b ∧ b ≤ 122 ∧ b ≠ 106) ∧
    (∀ b, 97 ≤ b → b ≤ 122 → b ≠ 106 → b ∈ generate_key kw) := by
  have hrange : ∀ b ∈ generate_key kw, 97 ≤ b ∧ b ≤ 122 ∧ b ≠ 106 := by
    intro b hb
    unfold generate_key at hb
    rcases mem_foldl_updateKey hb with hb' | ⟨c, hc, hb'⟩
    · rcases mem_foldl_updateKey hb' with hb'' | ⟨c, hc, hb''⟩
      · simp at hb''
      · have hr := mem_lowerFilter_range hkw c hc
        have hf := foldChar_range hr.1 hr.2
        rw [hb'', asU8_eq (by omega)]
        exact hf
    · have hr := alphabetChars_range c hc
      have hf := foldChar_range hr.1 hr.2
      rw [hb', asU8_eq (by omega)]
      exact hf
  have hnd : (generate_key kw).Nodup := by
    unfold generate_key
    exact foldl_updateKey_nodup _ (foldl_updateKey_nodup _ List.nodup_nil)
  have hcomplete : ∀ b, 97 ≤ b → b ≤ 122 → b ≠ 106 → b ∈ generate_key kw := by
    intro b h1 h2 h3
    obtain ⟨c, hc, hcb⟩ := alphabetChars_complete b (by omega) h1 h3
    unfold generate_key
    exact hcb ▸ foldl_updateKey_mem_self _ hc
  refine ⟨hnd, ?_, hrange, hcomplete⟩
  have hset : (generate_key kw).toFinset = alpha25 := by
    apply Finset.ext
    intro b
    simp only [List.mem_toFinset, alpha25, Finset.mem_erase, Finset.mem_Icc]
    constructor
    · intro hb
      have := hrange b hb
      exact ⟨this.2.2, this.1, this.2.1⟩
    · rintro ⟨h3, h1, h2⟩
      exact hcomplete b h1 h2 h3
  have hcard : ((25 : Nat)) = (generate_key kw).toFinset.card := by
    rw [hset]
    decide
  rw [hcard]
  exact (List.toFinset_card_of_nodup hnd).symm

/-! ### Digram loop lemmas -/

theorem keyIdx_inv {key : List Nat} {i v : Nat} (h : keyIdx key i = .ok v) :
    key[i]? = some v := by
  unfold keyIdx at h
  split at h
  · rename_i heq
    rw [heq]
    exact congrArg some (Except.ok.inj h).symm ▸ (by cases h; rfl)
  · cases h

theorem posLookup_inv {key : List Nat} {x i : Nat}
    (h : posLookup key x = .ok i) : findPos key x = some i := by
  unfold posLookup at h
  split at h
  · rename_i heq
    cases h
    exact heq
  · cases h

theorem encPairOut_ok {key : List Nat} (hl : key.length = 25) {i j : Nat}
    (hi : i < 25) (hj : j < 25) :
    ∃ out, encPairOut key i j = .ok out ∧ ∀ b ∈ out, b ∈ key := by
  simp only [encPairOut]
  split
  · obtain ⟨c, hc, hc'⟩ := @keyIdx_ok key (i / 5 * 5 + j % 5) (by omega)
    obtain ⟨d, hd, hd'⟩ := @keyIdx_ok key (j / 5 * 5 + i % 5) (by omega)
    refine ⟨[c, d], by rw [hc, hd], ?_⟩
    intro b hb
    rcases List.mem_cons.mp hb with rfl | hb
    · exact memOfGet hc'
    · rw [List.mem_singleton.mp hb]
      exact memOfGet hd'
  · split
    · obtain ⟨c, hc, hc'⟩ := @keyIdx_ok key (i / 5 * 5 + (i % 5 + 1) % 5) (by omega)
      obtain ⟨d, hd, hd'⟩ := @keyIdx_ok key (j / 5 * 5 + (j % 5 + 1) % 5) (by omega)
      refine ⟨[c, d], by rw [hc, hd], ?_⟩
      intro b hb
      rcases List.mem_cons.mp hb with rfl | hb
      · exact memOfGet hc'
      · rw [List.mem_singleton.mp hb]
        exact memOfGet hd'
    · split
      · obtain ⟨c, hc, hc'⟩ := @keyIdx_ok key ((i / 5 + 1) % 5 * 5 + i % 5) (by omega)
        obtain ⟨d, hd, hd'⟩ := @keyIdx_ok key ((j / 5 + 1) % 5 * 5 + j % 5) (by omega)
        refine ⟨[c, d], by rw [hc, hd], ?_⟩
        intro b hb
        rcases List.mem_cons.mp hb with rfl | hb
        · exact memOfGet hc'
        · rw [List.mem_singleton.mp hb]
          exact memOfGet hd'
      · exact ⟨[], rfl, by simp⟩

theorem decPairOut_ok {key : List Nat} (hl : key.length = 25) {i j : Nat}
    (hi : i < 25) (hj : j < 25) :
    ∃ out, decPairOut key i j = .ok out ∧ ∀ b ∈ out, b ∈ key := by
  simp only [decPairOut]
  split
  · obtain ⟨c, hc, hc'⟩ := @keyIdx_ok key (i / 5 * 5 + j % 5) (by omega)
    obtain ⟨d, hd, hd'⟩ := @keyIdx_ok key (j / 5 * 5 + i % 5) (by omega)
    refine ⟨[c, d], by rw [hc, hd], ?_⟩
    intro b hb
    rcases List.mem_cons.mp hb with rfl | hb
    · exact memOfGet hc'
    · rw [List.mem_singleton.mp hb]
      exact memOfGet hd'
  · split
    · obtain ⟨c, hc, hc'⟩ := @keyIdx_ok key (i / 5 * 5 + (i % 5 + 5 - 1) % 5) (by omega)
      obtain ⟨d, hd, hd'⟩ := @keyIdx_ok key (j / 5 * 5 + (j % 5 + 5 - 1) % 5) (by omega)
      refine ⟨[c, d], by rw [hc, hd], ?_⟩
      intro b hb
      rcases List.mem_cons.mp hb with rfl | hb
      · exact memOfGet hc'
      · rw [List.mem_singleton.mp hb]
        exact memOfGet hd'
    · split
      · obtain ⟨c, hc, hc'⟩ := @keyIdx_ok key ((i / 5 + 5 - 1) % 5 * 5 + i % 5) (by omega)
        obtain ⟨d, hd, hd'⟩ := @keyIdx_ok key ((j / 5 + 5 - 1) % 5 * 5 + j % 5) (by omega)
        refine ⟨[c, d], by rw [hc, hd], ?_⟩
        intro b hb
        rcases List.mem_cons.mp hb with rfl | hb
        · exact memOfGet hc'
        · rw [List.mem_singleton.mp hb]
          exact memOfGet hd'
      · exact ⟨[], rfl, by simp⟩

theorem pairLoop_ok {f : List Nat → Nat → Nat → PRes (List Nat)} {key : List Nat}
    (hl : key.length = 25)
    (hf : ∀ i j, i < 25 → j < 25 → ∃ out, f key i j = .ok out ∧ ∀ b ∈ out, b ∈ key) :
    ∀ s : List Nat, (∀ b ∈ s, b ∈ key) → s.length % 2 = 0 →
      ∃ out, pairLoop f key s = .ok out ∧ ∀ b ∈ out, b ∈ key := by
  intro s
  induction s using twoStepInduction with
  | h0 => exact fun _ _ => ⟨[], rfl, by simp⟩
  | h1 a => intro _ hpar; simp at hpar
  | h2 a b rest ih =>
    intro hmem hpar
    obtain ⟨i, hi⟩ := findPos_of_mem (hmem a (by simp))
    obtain ⟨j, hj⟩ := findPos_of_mem (hmem b (by simp))
    have hi25 : i < 25 := hl ▸ findPos_lt hi
    have hj25 : j < 25 := hl ▸ findPos_lt hj
    obtain ⟨out, hout, houtmem⟩ := hf i j hi25 hj25
    obtain ⟨outs, houts, houtsmem⟩ :=
      ih (fun x hx => hmem x (by simp [hx])) (by simp at hpar ⊢; omega)
    refine ⟨out ++ outs, ?_, ?_⟩
    · simp only [pairLoop, posLookup_ok hi, posLookup_ok hj, hout, houts]
    · intro b hb
      rcases List.mem_append.mp hb with hb | hb
      · exact houtmem b hb
      · exact houtsmem b hb

theorem pairLoop_crash {f : List Nat → Nat → Nat → PRes (List Nat)} {key : List Nat}
    (hl : key.length = 25)
    (hf : ∀ i j, i < 25 → j < 25 → ∃ out, f key i j = .ok out ∧ ∀ b ∈ out, b ∈ key) :
    ∀ s : List Nat, (∀ b ∈ s, b ∈ key) → s.length % 2 = 1 →
      pairLoop f key s = .error .crash := by
  intro s
  induction s using twoStepInduction with
  | h0 => intro _ hpar; simp at hpar
  | h1 a =>
    intro hmem _
    obtain ⟨i, hi⟩ := findPos_of_mem (hmem a (by simp))
    simp only [pairLoop, posLookup_ok hi]
  | h2 a b rest ih =>
    intro hmem hpar
    obtain ⟨i, hi⟩ := findPos_of_mem (hmem a (by simp))
    obtain ⟨j, hj⟩ := findPos_of_mem (hmem b (by simp))
    have hi25 : i < 25 := hl ▸ findPos_lt hi
    have hj25 : j < 25 := hl ▸ findPos_lt hj
    obtain ⟨out, hout, _⟩ := hf i j hi25 hj25
    have hrest := ih (fun x hx => hmem x (by simp [hx])) (by simp at hpar ⊢; omega)
    simp only [pairLoop, posLookup_ok hi, posLookup_ok hj, hout, hrest]

theorem pairLoop_mem {f : List Nat → Nat → Nat → PRes (List Nat)} {key : List Nat}
    (hf : ∀ i j o, f key i j = .ok o → ∀ b ∈ o, b ∈ key) :
    ∀ s out, pairLoop f key s = .ok out → ∀ b ∈ out, b ∈ key := by
  intro s
  induction s using twoStepInduction with
  | h0 =>
    intro out h
    cases h
    simp
  | h1 a =>
    intro out h
    unfold pairLoop at h
    split at h <;> cases h
  | h2 a b rest ih =>
    intro out h
    unfold pairLoop at h
    split at h
    · cases h
    · rename_i i hpa
      split at h
      · cases h
      · rename_i j hpb
        split at h
        · cases h
        · rename_i o ho
          split at h
          · cases h
          · rename_i outs houts
            cases h
            intro b hb
            rcases List.mem_append.mp hb with hb | hb
            · exact hf i j o ho b hb
            · exact ih outs houts b hb

theorem pairLoop_err {f : List Nat → Nat → Nat → PRes (List Nat)} {key : List Nat}
    (hl : key.length = 25)
    (hf : ∀ i j, i < 25 → j < 25 → ∃ out, f key i j = .ok out ∧ ∀ b ∈ out, b ∈ key) :
    ∀ s : List Nat, s.length % 2 = 0 → (∃ x ∈ s, findPos key x = none) →
      pairLoop f key s = .error .retNone := by
  intro s
  induction s using twoStepInduction with
  | h0 => intro _ hx; simp at hx
  | h1 a => intro hpar; simp at hpar
  | h2 a b rest ih =>
    intro hpar hx
    rcases ha : findPos key a with _ | i
    · simp only [pairLoop, posLookup, ha]
    · rcases hb : findPos key b with _ | j
      · simp only [pairLoop, posLookup, ha, hb]
      · have hi25 : i < 25 := hl ▸ findPos_lt ha
        have hj25 : j < 25 := hl ▸ findPos_lt hb
        obtain ⟨out, hout, _⟩ := hf i j hi25 hj25
        obtain ⟨x, hxmem, hxnone⟩ := hx
        have hxrest : x ∈ rest := by
          rcases List.mem_cons.mp hxmem with rfl | hxmem'
          · rw [ha] at hxnone; cases hxnone
          · rcases List.mem_cons.mp hxmem' with rfl | hxmem''
            · rw [hb] at hxnone; cases hxnone
            · exact hxmem''
        have hrest := ih (by simp at hpar ⊢; omega) ⟨x, hxrest, hxnone⟩
        simp only [pairLoop, posLookup_ok ha, posLookup_ok hb, hout, hrest]

/-! ### The decrypt digram transform inverts the encrypt digram transform -/

theorem keyIdx_of_get {key : List Nat} {i v : Nat} (h : key[i]? = some v) :
    keyIdx key i = .ok v := by
  simp [keyIdx, h]

theorem pair_roundtrip {key : List Nat} (hnd : key.Nodup) (hl : key.length = 25)
    {a b : Nat} (ha : a ∈ key) (hb : b ∈ key) (hab : a ≠ b) :
    ∃ i j c d ic jc,
      posLookup key a = .ok i ∧ posLookup key b = .ok j ∧
      encPairOut key i j = .ok [c, d] ∧ c ∈ key ∧ d ∈ key ∧
      posLookup key c = .ok ic ∧ posLookup key d = .ok jc ∧
      decPairOut key ic jc = .ok [a, b] := by
  obtain ⟨i, hi⟩ := findPos_of_mem ha
  obtain ⟨j, hj⟩ := findPos_of_mem hb
  have hgi : key[i]? = some a := findPos_eq_some hi
  have hgj : key[j]? = some b := findPos_eq_some hj
  have hi25 : i < 25 := hl ▸ findPos_lt hi
  have hj25 : j < 25 := hl ▸ findPos_lt hj
  have hij : i ≠ j := by
    intro h
    rw [h, hgj] at hgi
    exact hab (Option.some.inj hgi.symm)
  by_cases hy : i / 5 = j / 5
  · -- same row: right shift, inverted by left shift
    have hx : i % 5 ≠ j % 5 := by omega
    obtain ⟨c, hc, hc'⟩ :=
      @keyIdx_ok key (i / 5 * 5 + (i % 5 + 1) % 5) (by omega)
    obtain ⟨d, hd, hd'⟩ :=
      @keyIdx_ok key (j / 5 * 5 + (j % 5 + 1) % 5) (by omega)
    refine ⟨i, j, c, d, _, _, posLookup_ok hi, posLookup_ok hj, ?_, memOfGet hc',
      memOfGet hd', posLookup_ok (findPos_get hnd hc'), posLookup_ok (findPos_get hnd hd'), ?_⟩
    · simp only [encPairOut]
      rw [if_neg (by omega : ¬(i / 5 ≠ j / 5 ∧ i % 5 ≠ j % 5)), if_pos hy, hc, hd]
    · have hcond : ¬((i / 5 * 5 + (i % 5 + 1) % 5) / 5 ≠ (j / 5 * 5 + (j % 5 + 1) % 5) / 5 ∧
          (i / 5 * 5 + (i % 5 + 1) % 5) % 5 ≠ (j / 5 * 5 + (j % 5 + 1) % 5) % 5) := by
        omega
      have hrow : (i / 5 * 5 + (i % 5 + 1) % 5) / 5 = (j / 5 * 5 + (j % 5 + 1) % 5) / 5 := by
        omega
      have hidx1 : (i / 5 * 5 + (i % 5 + 1) % 5) / 5 * 5 +
          ((i / 5 * 5 + (i % 5 + 1) % 5) % 5 + 5 - 1) % 5 = i := by omega
      have hidx2 : (j / 5 * 5 + (j % 5 + 1) % 5) / 5 * 5 +
          ((j / 5 * 5 + (j % 5 + 1) % 5) % 5 + 5 - 1) % 5 = j := by omega
      simp only [decPairOut]
      rw [if_neg hcond, if_pos hrow, hidx1, hidx2, keyIdx_of_get hgi, keyIdx_of_get hgj]
  · by_cases hx : i % 5 = j % 5
    · -- same column: down shift, inverted by up shift
      obtain ⟨c, hc, hc'⟩ :=
        @keyIdx_ok key ((i / 5 + 1) % 5 * 5 + i % 5) (by omega)
      obtain ⟨d, hd, hd'⟩ :=
        @keyIdx_ok key ((j / 5 + 1) % 5 * 5 + j % 5) (by omega)
      refine ⟨i, j, c, d, _, _, posLookup_ok hi, posLookup_ok hj, ?_, memOfGet hc',
        memOfGet hd', posLookup_ok (findPos_get hnd hc'), posLookup_ok (findPos_get hnd hd'), ?_⟩
      · simp only [encPairOut]
        rw [if_neg (by omega : ¬(i / 5 ≠ j / 5 ∧ i % 5 ≠ j % 5)), if_neg hy, if_pos hx, hc, hd]
      · have hcond : ¬(((i / 5 + 1) % 5 * 5 + i % 5) / 5 ≠ ((j / 5 + 1) % 5 * 5 + j % 5) / 5 ∧
            ((i / 5 + 1) % 5 * 5 + i % 5) % 5 ≠ ((j / 5 + 1) % 5 * 5 + j % 5) % 5) := by
          omega
        have hrow : ¬(((i / 5 + 1) % 5 * 5 + i % 5) / 5 = ((j / 5 + 1) % 5 * 5 + j % 5) / 5) := by
          omega
        have hcol : ((i / 5 + 1) % 5 * 5 + i % 5) % 5 = ((j / 5 + 1) % 5 * 5 + j % 5) % 5 := by
          omega
        have hidx1 : (((i / 5 + 1) % 5 * 5 + i % 5) / 5 + 5 - 1) % 5 * 5 +
            ((i / 5 + 1) % 5 * 5 + i % 5) % 5 = i := by omega
        have hidx2 : (((j / 5 + 1) % 5 * 5 + j % 5) / 5 + 5 - 1) % 5 * 5 +
            ((j / 5 + 1) % 5 * 5 + j % 5) % 5 = j := by omega
        simp only [decPairOut]
        rw [if_neg hcond, if_neg hrow, if_pos hcol, hidx1, hidx2,
          keyIdx_of_get hgi, keyIdx_of_get hgj]
    · -- rectangle: column swap, self-inverse
      obtain ⟨c, hc, hc'⟩ :=
        @keyIdx_ok key (i / 5 * 5 + j % 5) (by omega)
      obtain ⟨d, hd, hd'⟩ :=
        @keyIdx_ok key (j / 5 * 5 + i % 5) (by omega)
      refine ⟨i, j, c, d, _, _, posLookup_ok hi, posLookup_ok hj, ?_, memOfGet hc',
        memOfGet hd', posLookup_ok (findPos_get hnd hc'), posLookup_ok (findPos_get hnd hd'), ?_⟩
      · simp only [encPairOut]
        rw [if_pos ⟨hy, hx⟩, hc, hd]
      · have hcond : (i / 5 * 5 + j % 5) / 5 ≠ (j / 5 * 5 + i % 5) / 5 ∧
            (i / 5 * 5 + j % 5) % 5 ≠ (j / 5 * 5 + i % 5) % 5 := by omega
        have hidx1 : (i / 5 * 5 + j % 5) / 5 * 5 + (j / 5 * 5 + i % 5) % 5 = i := by omega
        have hidx2 : (j / 5 * 5 + i % 5) / 5 * 5 + (i / 5 * 5 + j % 5) % 5 = j := by omega
        simp only [decPairOut]
        rw [if_pos hcond, hidx1, hidx2, keyIdx_of_get hgi, keyIdx_of_get hgj]

theorem pairLoop_roundtrip {key : List Nat} (hnd : key.Nodup) (hl : key.length = 25) :
    ∀ s : List Nat, (∀ b ∈ s, b ∈ key) → s.length % 2 = 0 →
      (∀ i, i < s.length → i % 2 = 0 → s[i]? ≠ s[i + 1]?) →
      ∃ c, pairLoop encPairOut key s = .ok c ∧ pairLoop decPairOut key c = .ok s ∧
        (∀ b ∈ c, b ∈ key) ∧ c.length = s.length := by
  intro s
  induction s using twoStepInduction with
  | h0 => exact fun _ _ _ => ⟨[], rfl, rfl, by simp, rfl⟩
  | h1 a => intro _ hpar _; simp at hpar
  | h2 a b rest ih =>
    intro hmem hpar hpairs
    have hab : a ≠ b := by
      have h0 := hpairs 0 (by simp) (by simp)
      intro hcontra
      apply h0
      rw [List.getElem?_cons_zero, List.getElem?_cons_succ, List.getElem?_cons_zero, hcontra]
    obtain ⟨i, j, c, d, ic, jc, hpa, hpb, henc, hcmem, hdmem, hpc, hpd, hdec⟩ :=
      pair_roundtrip hnd hl (hmem a (by simp)) (hmem b (by simp)) hab
    obtain ⟨cs, hcs_enc, hcs_dec, hcs_mem, hcs_len⟩ :=
      ih (fun x hx => hmem x (by simp [hx])) (by simp at hpar ⊢; omega)
        (by
          intro k hk hk2
          have := hpairs (k + 2) (by simp at hk ⊢; omega) (by omega)
          simpa using this)
    refine ⟨c :: d :: cs, ?_, ?_, ?_, by simp [hcs_len]⟩
    · have : [c, d] ++ cs = c :: d :: cs := rfl
      simp only [pairLoop, hpa, hpb, henc, hcs_enc, this]
    · have : [a, b] ++ rest = a :: b :: rest := rfl
      simp only [pairLoop, hpc, hpd, hdec, hcs_dec, this]
    · intro x hx
      rcases List.mem_cons.mp hx with rfl | hx
      · exact hcmem
      · rcases List.mem_cons.mp hx with rfl | hx
        · exact hdmem
        · exact hcs_mem x hx

/-! ### The duplicate-separation pass -/

theorem foldl_congr_id {g : List Nat → Nat → List Nat} {p : List Nat} {idxs : List Nat}
    (h : ∀ i ∈ idxs, g p i = p) : idxs.foldl g p = p := by
  induction idxs with
  | nil => rfl
  | cons i is ih =>
    rw [List.foldl_cons, h i (by simp)]
    exact ih fun k hk => h k (by simp [hk])

theorem dupStep_eq_insert {pad : Nat} {p : List Nat} {i a : Nat}
    (h1 : p[i]? = some a) (h2 : p[i + 1]? = some a) :
    dupStep pad p i = insertAt (i + 1) pad p := by
  unfold dupStep
  rw [h1]
  show (if p[i + 1]? = some a then insertAt (i + 1) pad p else p) = _
  exact if_pos h2

theorem dupStep_eq_self {pad : Nat} {p : List Nat} {i : Nat}
    (h : ∀ a, p[i]? = some a → p[i + 1]? ≠ some a) :
    dupStep pad p i = p := by
  unfold dupStep
  rcases h1 : p[i]? with _ | a
  · rfl
  · show (if p[i + 1]? = some a then insertAt (i + 1) pad p else p) = p
    exact if_neg (h a h1)

theorem dupPass_id {pad : Nat} {s : List Nat}
    (h : ∀ i, i < s.length → i % 2 = 0 → s[i]? ≠ s[i + 1]?) :
    dupPass pad s = s := by
  unfold dupPass
  apply foldl_congr_id
  intro i hi
  obtain ⟨m, hm, hi_eq⟩ := List.mem_range'.mp hi
  subst hi_eq
  have hlt : 0 + 2 * m < s.length := by omega
  have hne := h _ hlt (by omega)
  exact dupStep_eq_self fun a h1 hcontra => hne (h1.trans hcontra.symm)

theorem dupStep_mem {b pad : Nat} {p : List Nat} (i : Nat) (h : b ∈ p) :
    b ∈ dupStep pad p i := by
  unfold dupStep
  split
  · split
    · exact insertAt_mem_of_mem _ _ h
    · exact h
  · exact h

theorem foldl_dupStep_mem {b pad : Nat} {idxs : List Nat} {p : List Nat} (h : b ∈ p) :
    b ∈ idxs.foldl (dupStep pad) p := by
  induction idxs generalizing p with
  | nil => exact h
  | cons i is ih => exact ih (dupStep_mem i h)

theorem foldl_dupStep_nopad {pad : Nat} : ∀ (idxs : List Nat) (p : List Nat),
    pad ∉ idxs.foldl (dupStep pad) p →
    idxs.foldl (dupStep pad) p = p ∧
      ∀ i ∈ idxs, ∀ a, p[i]? = some a → p[i + 1]? ≠ some a := by
  intro idxs
  induction idxs with
  | nil => exact fun p _ => ⟨rfl, by simp⟩
  | cons i is ih =>
    intro p h
    rw [List.foldl_cons] at h ⊢
    by_cases hdup : ∃ a, p[i]? = some a ∧ p[i + 1]? = some a
    · obtain ⟨a, h1, h2⟩ := hdup
      rw [dupStep_eq_insert h1 h2] at h
      exact absurd (foldl_dupStep_mem (insertAt_mem _ _ _)) h
    · have hstep : dupStep pad p i = p :=
        dupStep_eq_self fun a h1 h2 => hdup ⟨a, h1, h2⟩
      rw [hstep] at h ⊢
      obtain ⟨heq, hrest⟩ := ih p h
      refine ⟨heq, ?_⟩
      intro k hk a h1 h2
      rcases List.mem_cons.mp hk with rfl | hk
      · exact hdup ⟨a, h1, h2⟩
      · exact hrest k hk a h1 h2

theorem paddedStream_even (pad : Nat) (s : List Nat) :
    (paddedStream pad s).length % 2 = 0 := by
  simp only [paddedStream]
  split
  · rename_i h
    simp only [List.length_append, List.length_singleton]
    omega
  · rename_i h
    omega

theorem paddedStream_eq {pad : Nat} {s : List Nat} (hid : dupPass pad s = s)
    (heven : s.length % 2 = 0) : paddedStream pad s = s := by
  simp only [paddedStream, hid]
  rw [if_neg (by omega)]

theorem paddedStream_pad_mem {pad : Nat} {s : List Nat}
    (h : (∃ i, i + 1 < s.length ∧ i % 2 = 0 ∧ s[i]? = s[i + 1]?) ∨
         (dupPass pad s).length % 2 = 1) :
    pad ∈ paddedStream pad s := by
  have hmono : pad ∈ dupPass pad s → pad ∈ paddedStream pad s := by
    intro hm
    simp only [paddedStream]
    split
    · exact List.mem_append_left _ hm
    · exact hm
  rcases h with ⟨i, hi1, hi2, hi3⟩ | hodd
  · by_cases hp : pad ∈ dupPass pad s
    · exact hmono hp
    · exfalso
      obtain ⟨_, hnodup⟩ := foldl_dupStep_nopad _ s hp
      have himem : i ∈ List.range' 0 ((s.length + 1) / 2) 2 :=
        List.mem_range'.mpr ⟨i / 2, by omega, by omega⟩
      have hlt : i < s.length := by omega
      have ha : s[i]? = some s[i] := List.getElem?_eq_getElem hlt
      exact hnodup i himem _ ha (hi3 ▸ ha)
  · simp only [paddedStream]
    rw [if_pos (by omega)]
    exact List.mem_append_right _ (List.mem_singleton.mpr rfl)

/-! ### Normalization lemmas for ASCII text -/

theorem rustToLowerChar_lower {c : Char} (h1 : 97 ≤ c.toNat) (h2 : c.toNat ≤ 122) :
    rustToLowerChar c = [c] := by
  unfold rustToLowerChar
  exact if_neg (by omega)

theorem rustIsAlphabetic_lower {c : Char} (h1 : 97 ≤ c.toNat) (h2 : c.toNat ≤ 122) :
    rustIsAlphabetic c = true := by
  unfold rustIsAlphabetic
  rw [decide_eq_true_iff]
  omega

theorem foldChar_eq_self {c : Char} (h : c.toNat ≠ 106) : foldChar c = c := by
  unfold foldChar
  exact if_neg fun hj => h (by rw [hj]; rfl)

theorem normalizeEnc_lower {P : List Char}
    (hP : ∀ c ∈ P, 97 ≤ c.toNat ∧ c.toNat ≤ 122 ∧ c.toNat ≠ 106) :
    normalizeEnc P = P.map Char.toNat := by
  induction P with
  | nil => rfl
  | cons c P ih =>
    obtain ⟨h1, h2, h3⟩ := hP c (by simp)
    have ihP := ih fun d hd => hP d (by simp [hd])
    unfold normalizeEnc rustToLower at ihP ⊢
    rw [List.flatMap_cons, rustToLowerChar_lower h1 h2, List.singleton_append,
      List.filter_cons_of_pos (rustIsAlphabetic_lower h1 h2), List.map_cons, ihP,
      List.map_cons, foldChar_eq_self h3, asU8_eq (by omega)]

theorem normalizeDec_lower {P : List Char}
    (hP : ∀ c ∈ P, 97 ≤ c.toNat ∧ c.toNat ≤ 122) :
    normalizeDec P = P.map Char.toNat := by
  induction P with
  | nil => rfl
  | cons c P ih =>
    obtain ⟨h1, h2⟩ := hP c (by simp)
    have ihP := ih fun d hd => hP d (by simp [hd])
    unfold normalizeDec rustToLower at ihP ⊢
    rw [List.flatMap_cons, rustToLowerChar_lower h1 h2, List.singleton_append,
      List.filter_cons_of_pos (rustIsAlphabetic_lower h1 h2), List.map_cons, ihP,
      List.map_cons, asU8_eq (by omega)]

theorem utf8Size_ascii {c : Char} (h : c.toNat < 128) : utf8Size c = 1 := by
  unfold utf8Size
  exact if_pos h

theorem rustStrLen_ascii {s : List Char} (h : ∀ c ∈ s, c.toNat < 128) :
    rustStrLen s = s.length := by
  induction s with
  | nil => rfl
  | cons c s ih =>
    unfold rustStrLen at ih ⊢
    rw [List.map_cons, List.sum_cons, utf8Size_ascii (h c (by simp)),
      ih fun d hd => h d (by simp [hd]), List.length_cons]
    omega

theorem validUtf8_cons_ascii {b : Nat} {r : List Nat} (hb : b < 128) :
    validUtf8 (b :: r) = validUtf8 r := by
  unfold validUtf8
  rw [utf8Scan]
  exact if_pos hb

theorem validUtf8_ascii {l : List Nat} (h : ∀ b ∈ l, b < 128) :
    validUtf8 l = true := by
  induction l with
  | nil => rfl
  | cons b r ih =>
    rw [validUtf8_cons_ascii (h b (by simp))]
    exact ih fun x hx => h x (by simp [hx])

theorem map_ofNat_toNat {c : List Nat} (h : ∀ b ∈ c, b < 55296) :
    (c.map Char.ofNat).map Char.toNat = c := by
  induction c with
  | nil => rfl
  | cons b r ih =>
    rw [List.map_cons, List.map_cons, toNat_ofNat (h b (by simp)),
      ih fun x hx => h x (by simp [hx])]

theorem encPairOut_mem {key : List Nat} {i j : Nat} {o : List Nat}
    (h : encPairOut key i j = .ok o) : ∀ b ∈ o, b ∈ key := by
  simp only [encPairOut] at h
  split at h
  · split at h
    · rename_i c d hc hd
      cases h
      intro b hb
      rcases List.mem_cons.mp hb with rfl | hb
      · exact memOfGet (keyIdx_inv hc)
      · rw [List.mem_singleton.mp hb]
        exact memOfGet (keyIdx_inv hd)
    · exact absurd h (by simp)
    · exact absurd h (by simp)
  · split at h
    · split at h
      · rename_i c d hc hd
        cases h
        intro b hb
        rcases List.mem_cons.mp hb with rfl | hb
        · exact memOfGet (keyIdx_inv hc)
        · rw [List.mem_singleton.mp hb]
          exact memOfGet (keyIdx_inv hd)
      · exact absurd h (by simp)
      · exact absurd h (by simp)
    · split at h
      · split at h
        · rename_i c d hc hd
          cases h
          intro b hb
          rcases List.mem_cons.mp hb with rfl | hb
          · exact memOfGet (keyIdx_inv hc)
          · rw [List.mem_singleton.mp hb]
            exact memOfGet (keyIdx_inv hd)
        · exact absurd h (by simp)
        · exact absurd h (by simp)
      · cases h
        simp

theorem rustToLowerChar_of_not_alpha {c : Char} (h : rustIsAlphabetic c = false) :
    rustToLowerChar c = [c] := by
  unfold rustIsAlphabetic at h
  unfold rustToLowerChar
  exact if_neg fun hA => of_decide_eq_false h (Or.inl hA)

theorem rustToLower_eq_self {kw : List Char}
    (h : ∀ c ∈ kw, rustToLowerChar c = [c]) : rustToLower kw = kw := by
  unfold rustToLower
  induction kw with
  | nil => rfl
  | cons c l ih =>
    rw [List.flatMap_cons, h c (by simp), List.singleton_append,
      ih fun d hd => h d (by simp [hd])]

/-! ### Claim theorems -/

set_option maxRecDepth 10000 in
/-- C5: `encrypt("playfair example", "hide the gold in the tree stump", 'x')`
succeeds and returns the ciphertext "bmodzbxdnabekudmuixmmouvif" (as its
ASCII byte sequence). -/
theorem encrypt_wikipedia_example :
    encrypt ("playfair example".toList) ("hide the gold in the tree stump".toList) 'x' =
      .ok (("bmodzbxdnabekudmuixmmouvif".toList).map Char.toNat) := by
  rfl

set_option maxRecDepth 10000 in
/-- C6: `decrypt("playfair example", "bmodzbxdnabekudmuixmmouvif")` succeeds
and returns the plaintext "hidethegoldinthetrexestump" (as its ASCII byte
sequence). -/
theorem decrypt_wikipedia_example :
    decrypt ("playfair example".toList) ("bmodzbxdnabekudmuixmmouvif".toList) =
      .ok (("hidethegoldinthetrexestump".toList).map Char.toNat) := by
  rfl

set_option maxRecDepth 10000 in
/-- C2: `decrypt` is not total.  On the ciphertext "abc!" the raw length 4
passes the parity check, normalization drops '!' leaving the odd-length
stream "abc", and the digram loop reads `ciphertext[3]`, one past the end
of the 3-byte vector: an out-of-bounds index (a Rust panic) rather than a
`None` failure result, contradicting the spec's error-handling contract. -/
theorem decrypt_crash_example :
    decrypt ("playfair".toList) ("abc!".toList) = .error .crash := by
  rfl

set_option maxRecDepth 10000 in
/-- C1 counterexample: the ciphertext "ab!" has two normalized letters (an
even count, both present in the key square), yet `decrypt` fails, because
the odd-length test is applied to the raw string length 3 before
normalization; the claimed "fails iff the normalized letter count is odd"
is false, and non-alphabetic characters do influence failure. -/
theorem decrypt_even_letters_raw_odd_fails :
    decrypt ("playfair".toList) ("ab!".toList) = .error .retNone ∧
      (normalizeDec ("ab!".toList)).length % 2 = 0 ∧
      ∀ b ∈ normalizeDec ("ab!".toList), b ∈ generate_key ("playfair".toList) := by
  refine ⟨by rfl, by rfl, by decide⟩

/-- C1 amended: for an ASCII keyword and an ASCII ciphertext all of whose
normalized letters occur in the key square, `decrypt` returns the `None`
failure exactly when the RAW ciphertext length — counted before dropping
non-alphabetic characters — is odd.  (With an even raw length and an odd
normalized count the call crashes instead; see C2.) -/
theorem decrypt_none_iff_raw_odd {kw ct : List Char}
    (hkw : ∀ c ∈ kw, c.toNat < 128) (hct : ∀ c ∈ ct, c.toNat < 128)
    (hmem : ∀ b ∈ normalizeDec ct, b ∈ generate_key kw) :
    decrypt kw ct = .error .retNone ↔ ct.length % 2 = 1 := by
  obtain ⟨hnd, hlen, hrange, _⟩ := generate_key_ascii hkw
  have hraw : rustStrLen ct = ct.length := rustStrLen_ascii hct
  constructor
  · intro hres
    by_contra hodd
    have heven : ct.length % 2 = 0 := by omega
    rcases Nat.mod_two_eq_zero_or_one (normalizeDec ct).length with hn | hn
    · obtain ⟨out, hout, houtmem⟩ :=
        pairLoop_ok hlen (fun i j hi hj => decPairOut_ok hlen hi hj)
          (normalizeDec ct) hmem hn
      have hres' : decrypt kw ct = .ok out := by
        simp only [decrypt, hraw]
        rw [if_neg (by omega)]
        simp only [hout]
        rw [if_pos (validUtf8_ascii fun b hb => by
          have := hrange b (houtmem b hb); omega)]
      rw [hres'] at hres
      cases hres
    · have hres' : decrypt kw ct = .error .crash := by
        simp only [decrypt, hraw]
        rw [if_neg (by omega)]
        simp only [pairLoop_crash hlen (fun i j hi hj => decPairOut_ok hlen hi hj)
          (normalizeDec ct) hmem hn]
      rw [hres'] at hres
      exact PFail.noConfusion (Except.error.inj hres)
  · intro hodd
    unfold decrypt
    rw [if_pos (by omega)]

set_option maxRecDepth 10000 in
/-- C1 amended witness: keyword "playfair", ciphertext "ode" (raw length 3,
odd), where the amended equivalence yields failure. -/
theorem decrypt_none_iff_raw_odd_witness :
    (∀ c ∈ ("playfair".toList), c.toNat < 128) ∧
      (∀ c ∈ ("ode".toList), c.toNat < 128) ∧
      (∀ b ∈ normalizeDec ("ode".toList), b ∈ generate_key ("playfair".toList)) ∧
      (decrypt ("playfair".toList) ("ode".toList) = .error .retNone ↔
        ("ode".toList).length % 2 = 1) :=
  ⟨by decide, by decide, by decide,
    decrypt_none_iff_raw_odd (by decide) (by decide) (by decide)⟩

set_option maxRecDepth 10000 in
/-- C3 counterexample: for the keyword "é" (U+00E9, non-ASCII but
alphabetic and lowercase), `update_key` pushes the truncated byte 0xE9,
which blocks no alphabet letter, so the key square has 26 entries, not 25
— the claim fails for keywords that are not restricted to ASCII. -/
theorem generate_key_length_26_example :
    (generate_key [Char.ofNat 233]).length = 26 := by
  rfl

/-- C3 amended: for every keyword consisting of ASCII characters, the key
square has length exactly 25, contains no duplicate entries, and does not
contain the letter 'j' (byte 106). -/
theorem generate_key_invariants {kw : List Char} (hkw : ∀ c ∈ kw, c.toNat < 128) :
    (generate_key kw).length = 25 ∧ (generate_key kw).Nodup ∧
      (106 : Nat) ∉ generate_key kw := by
  obtain ⟨hnd, hlen, hrange, _⟩ := generate_key_ascii hkw
  exact ⟨hlen, hnd, fun hmem => (hrange 106 hmem).2.2 rfl⟩

set_option maxRecDepth 10000 in
/-- C3 amended witness at the keyword "playfair example". -/
theorem generate_key_invariants_witness :
    (∀ c ∈ ("playfair example".toList), c.toNat < 128) ∧
      ((generate_key ("playfair example".toList)).length = 25 ∧
        (generate_key ("playfair example".toList)).Nodup ∧
        (106 : Nat) ∉ generate_key ("playfair example".toList)) :=
  ⟨by decide, generate_key_invariants (by decide)⟩

/-- C8: any keyword with no alphabetic character — in particular the empty
keyword, for which the hypothesis holds vacuously — yields the key square
"abcdefghiklmnopqrstuvwxyz" (the alphabet with 'j' folded into 'i'). -/
theorem generate_key_no_letters {kw : List Char}
    (h : ∀ c ∈ kw, rustIsAlphabetic c = false) :
    generate_key kw = ("abcdefghiklmnopqrstuvwxyz".toList).map Char.toNat := by
  have hlow : rustToLower kw = kw :=
    rustToLower_eq_self fun c hc => rustToLowerChar_of_not_alpha (h c hc)
  have hfil : (rustToLower kw).filter rustIsAlphabetic = [] := by
    rw [hlow]
    exact List.filter_eq_nil_iff.mpr fun c hc => by rw [h c hc]; simp
  unfold generate_key
  rw [hfil]
  rfl

set_option maxRecDepth 10000 in
/-- C8 witness at the letter-free keyword "12 !?". -/
theorem generate_key_no_letters_witness :
    (∀ c ∈ ("12 !?".toList), rustIsAlphabetic c = false) ∧
      generate_key ("12 !?".toList) =
        ("abcdefghiklmnopqrstuvwxyz".toList).map Char.toNat :=
  ⟨by decide, generate_key_no_letters (by decide)⟩

set_option maxRecDepth 10000 in
/-- C7 counterexample: with plaintext "aaaa" and pad 'x' (distinct from
every plaintext letter), the duplicate-insertion loop iterates over the
index range fixed at the original length 4, so the second insertion shifts
the final "aa" beyond the scanned range: the padded stream is "axaxaa" and
its digram at (even) position 4 is the identical pair (a, a), which the
pair transform then processes (same-row rule). -/
theorem padded_stream_identical_digram_example :
    paddedStream (asU8 'x') (normalizeEnc ("aaaa".toList)) =
        [97, 120, 97, 120, 97, 97] ∧
      (paddedStream (asU8 'x') (normalizeEnc ("aaaa".toList)))[4]? =
        (paddedStream (asU8 'x') (normalizeEnc ("aaaa".toList)))[5]? :=
  ⟨by rfl, by rfl⟩

/-- C7 amended: if the normalized plaintext stream has no two adjacent
equal letters (at any index) and the pad byte does not occur in the
stream, then no digram of the padded stream consists of two identical
letters. -/
theorem padded_stream_no_identical_digram {P : List Char} {pad : Char}
    (h1 : ∀ i, i < (normalizeEnc P).length →
      (normalizeEnc P)[i]? ≠ (normalizeEnc P)[i + 1]?)
    (h2 : asU8 pad ∉ normalizeEnc P) :
    ∀ i, i % 2 = 0 → i + 1 < (paddedStream (asU8 pad) (normalizeEnc P)).length →
      (paddedStream (asU8 pad) (normalizeEnc P))[i]? ≠
        (paddedStream (asU8 pad) (normalizeEnc P))[i + 1]? := by
  have hid : dupPass (asU8 pad) (normalizeEnc P) = normalizeEnc P :=
    dupPass_id fun i hi _ => h1 i hi
  intro i _ hi1
  rcases Nat.mod_two_eq_zero_or_one (normalizeEnc P).length with hn | hn
  · rw [paddedStream_eq hid hn] at hi1 ⊢
    exact h1 i (by omega)
  · have hp : paddedStream (asU8 pad) (normalizeEnc P) =
        normalizeEnc P ++ [asU8 pad] := by
      simp only [paddedStream, hid]
      rw [if_pos (by omega)]
    rw [hp] at hi1 ⊢
    rw [List.length_append, List.length_singleton] at hi1
    by_cases hcase : i + 1 < (normalizeEnc P).length
    · rw [List.getElem?_append_left (by omega), List.getElem?_append_left hcase]
      exact h1 i (by omega)
    · have hieq : i + 1 = (normalizeEnc P).length := by omega
      have hconcat : (normalizeEnc P ++ [asU8 pad])[i + 1]? = some (asU8 pad) := by
        rw [hieq]
        exact List.getElem?_concat_length _ _
      rw [List.getElem?_append_left (by omega), hconcat]
      intro hcontra
      exact h2 (memOfGet hcontra)

set_option maxRecDepth 10000 in
/-- C7 amended witness: plaintext "ab", pad 'x', digram at position 0. -/
theorem padded_stream_no_identical_digram_witness :
    (∀ i, i < (normalizeEnc ("ab".toList)).length →
        (normalizeEnc ("ab".toList))[i]? ≠ (normalizeEnc ("ab".toList))[i + 1]?) ∧
      asU8 'x' ∉ normalizeEnc ("ab".toList) ∧
      (paddedStream (asU8 'x') (normalizeEnc ("ab".toList)))[0]? ≠
        (paddedStream (asU8 'x') (normalizeEnc ("ab".toList)))[1]? :=
  ⟨by decide, by decide,
    padded_stream_no_identical_digram (by decide) (by decide) 0 (by decide) (by decide)⟩

set_option maxRecDepth 10000 in
/-- C9 counterexample: for the keyword "ɪ" (U+026A, alphabetic and
lowercase; `as u8` truncates 0x26A to 0x6A, the byte of 'j'), `encrypt`
succeeds on the plaintext "ae" and the ciphertext is "jf" — it contains
'j', refuting the claim for keywords that are not restricted to ASCII. -/
theorem encrypt_emits_j_example :
    encrypt [Char.ofNat 618] ("ae".toList) 'x' = .ok [106, 102] ∧
      (106 : Nat) ∈ [106, 102] ∧ Char.toNat 'j' = 106 :=
  ⟨by rfl, by decide, by rfl⟩

/-- C9 amended: for every ASCII keyword, plaintext and pad, a ciphertext
returned by `encrypt` contains no byte 106 ('j'): every output byte is an
entry of the key square, which contains no 'j'. -/
theorem encrypt_no_j_ascii {kw P : List Char} {pad : Char} {c : List Nat}
    (hkw : ∀ ch ∈ kw, ch.toNat < 128) (h : encrypt kw P pad = .ok c) :
    (106 : Nat) ∉ c := by
  obtain ⟨hnd, hlen, hrange, _⟩ := generate_key_ascii hkw
  rcases hloop : pairLoop encPairOut (generate_key kw)
      (paddedStream (asU8 pad) (normalizeEnc P)) with e | out
  · have hres : encrypt kw P pad = .error e := by
      simp only [encrypt, hloop]
    rw [hres] at h
    cases h
  · have hmem := pairLoop_mem (fun i j o ho => encPairOut_mem ho) _ out hloop
    have hres : encrypt kw P pad =
        if validUtf8 out then .ok out else .error .retNone := by
      simp only [encrypt, hloop]
    rw [hres] at h
    split at h
    · cases h
      intro hc
      exact (hrange 106 (hmem 106 hc)).2.2 rfl
    · cases h

set_option maxRecDepth 10000 in
/-- C9 amended witness: keyword "playfair", plaintext "hi", pad 'x' gives
the ciphertext "eb", free of 'j'. -/
theorem encrypt_no_j_ascii_witness :
    (∀ ch ∈ ("playfair".toList), ch.toNat < 128) ∧
      encrypt ("playfair".toList) ("hi".toList) 'x' = .ok [101, 98] ∧
      (106 : Nat) ∉ ([101, 98] : List Nat) :=
  ⟨by decide, by rfl,
    @encrypt_no_j_ascii ("playfair".toList) ("hi".toList) 'x' [101, 98]
      (by decide) (by rfl)⟩

set_option maxRecDepth 10000 in
/-- C10 counterexample: for the non-ASCII keyword "é" the key square has
26 entries and 'z' sits at flat position 25; encrypting "zaa" with pad 'J'
(byte 74, absent from the key square, with padding triggered by the odd
stream length) reaches `key[26]` and crashes with an out-of-bounds index
instead of returning `None`. -/
theorem encrypt_bad_pad_crash_example :
    encrypt [Char.ofNat 233] ("zaa".toList) 'J' = .error .crash ∧
      findPos (generate_key [Char.ofNat 233]) (asU8 'J') = none ∧
      (dupPass (asU8 'J') (normalizeEnc ("zaa".toList))).length % 2 = 1 :=
  ⟨by rfl, by rfl, by rfl⟩

/-- C10 amended: for an ASCII keyword, whenever the normalized plaintext
stream triggers padding (a duplicate digram at an even index, or odd
length after the duplicate pass) and the pad byte does not occur in the
key square, `encrypt` returns the `None` failure. -/
theorem encrypt_bad_pad_none {kw P : List Char} {pad : Char}
    (hkw : ∀ c ∈ kw, c.toNat < 128)
    (htrig : (∃ i, i + 1 < (normalizeEnc P).length ∧ i % 2 = 0 ∧
        (normalizeEnc P)[i]? = (normalizeEnc P)[i + 1]?) ∨
      (dupPass (asU8 pad) (normalizeEnc P)).length % 2 = 1)
    (hpad : findPos (generate_key kw) (asU8 pad) = none) :
    encrypt kw P pad = .error .retNone := by
  obtain ⟨hnd, hlen, _, _⟩ := generate_key_ascii hkw
  have hmem := paddedStream_pad_mem htrig
  have heven := paddedStream_even (asU8 pad) (normalizeEnc P)
  have hloop := pairLoop_err hlen (fun i j hi hj => encPairOut_ok hlen hi hj)
    (paddedStream (asU8 pad) (normalizeEnc P)) heven ⟨asU8 pad, hmem, hpad⟩
  simp only [encrypt, hloop]

set_option maxRecDepth 10000 in
/-- C10 amended witness: keyword "playfair", plaintext "aa" (duplicate
digram at position 0), pad 'j' (byte 106, absent from the key square). -/
theorem encrypt_bad_pad_none_witness :
    (∀ c ∈ ("playfair".toList), c.toNat < 128) ∧
      ((∃ i, i + 1 < (normalizeEnc ("aa".toList)).length ∧ i % 2 = 0 ∧
          (normalizeEnc ("aa".toList))[i]? = (normalizeEnc ("aa".toList))[i + 1]?) ∨
        (dupPass (asU8 'j') (normalizeEnc ("aa".toList))).length % 2 = 1) ∧
      findPos (generate_key ("playfair".toList)) (asU8 'j') = none ∧
      encrypt ("playfair".toList) ("aa".toList) 'j' = .error .retNone :=
  ⟨by decide, Or.inl ⟨0, by decide, by decide, by decide⟩, by rfl,
    encrypt_bad_pad_none (by decide)
      (Or.inl ⟨0, by decide, by decide, by decide⟩) (by rfl)⟩

set_option maxRecDepth 10000 in
/-- C4 counterexample: the plaintext "ja" consists only of lowercase
letters, has even length and no identical digram, yet with keyword "k" and
pad 'x' it encrypts to "fd" and decrypts back to "ia" ≠ "ja": 'j' is
folded to 'i' on the encrypt side and never restored. -/
theorem roundtrip_j_fails :
    encrypt ("k".toList) ("ja".toList) 'x' = .ok (("fd".toList).map Char.toNat) ∧
      decrypt ("k".toList) ("fd".toList) = .ok (("ia".toList).map Char.toNat) ∧
      ("ia".toList).map Char.toNat ≠ ("ja".toList).map Char.toNat :=
  ⟨by rfl, by rfl, by decide⟩

/-- C4 amended: for an ASCII keyword, a plaintext of lowercase letters
excluding 'j', of even length, with no identical digram at an even index,
and an arbitrary pad (never used under these hypotheses),
`decrypt(K, encrypt(K, P, X))` recovers exactly `P`. -/
theorem encrypt_decrypt_roundtrip {kw P : List Char} (pad : Char)
    (hkw : ∀ c ∈ kw, c.toNat < 128)
    (hP : ∀ c ∈ P, 97 ≤ c.toNat ∧ c.toNat ≤ 122 ∧ c.toNat ≠ 106)
    (heven : P.length % 2 = 0)
    (hpairs : ∀ i, i < P.length → i % 2 = 0 → P[i]? ≠ P[i + 1]?) :
    ∃ c, encrypt kw P pad = .ok c ∧
      decrypt kw (c.map Char.ofNat) = .ok (P.map Char.toNat) := by
  obtain ⟨hnd, hlen, hrange, hcomp⟩ := generate_key_ascii hkw
  have hs : normalizeEnc P = P.map Char.toNat := normalizeEnc_lower hP
  have hslen : (normalizeEnc P).length = P.length := by
    rw [hs, List.length_map]
  have hspairs : ∀ i, i < (normalizeEnc P).length → i % 2 = 0 →
      (normalizeEnc P)[i]? ≠ (normalizeEnc P)[i + 1]? := by
    intro i hi hev hcontra
    rw [hs] at hcontra hi
    rw [List.getElem?_map, List.getElem?_map] at hcontra
    have hi' : i < P.length := by simpa using hi
    apply hpairs i hi' hev
    rcases h1 : P[i]? with _ | a
    · exact absurd (List.getElem?_eq_none_iff.mp h1) (by omega)
    · rcases h2 : P[i + 1]? with _ | b
      · rw [h1, h2] at hcontra
        cases hcontra
      · rw [h1, h2] at hcontra
        simp only [Option.map_some'] at hcontra
        rw [char_eq_of_toNat (Option.some.inj hcontra)]
  have hid : dupPass (asU8 pad) (normalizeEnc P) = normalizeEnc P :=
    dupPass_id hspairs
  have hpadded : paddedStream (asU8 pad) (normalizeEnc P) = normalizeEnc P :=
    paddedStream_eq hid (by rw [hslen]; exact heven)
  have hmem : ∀ b ∈ normalizeEnc P, b ∈ generate_key kw := by
    intro b hb
    rw [hs] at hb
    obtain ⟨ch, hch, rfl⟩ := List.mem_map.mp hb
    obtain ⟨h1, h2, h3⟩ := hP ch hch
    exact hcomp _ h1 h2 h3
  obtain ⟨c, hc_enc, hc_dec, hc_mem, hc_len⟩ :=
    pairLoop_roundtrip hnd hlen (normalizeEnc P) hmem
      (by rw [hslen]; exact heven) hspairs
  have hc_ascii : ∀ b ∈ c, 97 ≤ b ∧ b ≤ 122 := fun b hb =>
    ⟨(hrange b (hc_mem b hb)).1, (hrange b (hc_mem b hb)).2.1⟩
  have henc : encrypt kw P pad = .ok c := by
    simp only [encrypt, hpadded, hc_enc]
    rw [if_pos (validUtf8_ascii fun b hb => by have := hc_ascii b hb; omega)]
  refine ⟨c, henc, ?_⟩
  have hmapchars : ∀ ch ∈ c.map Char.ofNat, 97 ≤ ch.toNat ∧ ch.toNat ≤ 122 := by
    intro ch hch
    obtain ⟨b, hb, rfl⟩ := List.mem_map.mp hch
    have hb' := hc_ascii b hb
    rw [toNat_ofNat (by omega)]
    exact hb'
  have hraw : rustStrLen (c.map Char.ofNat) = c.length := by
    rw [rustStrLen_ascii fun ch hch => by have := hmapchars ch hch; omega,
      List.length_map]
  have hdecnorm : normalizeDec (c.map Char.ofNat) = c := by
    rw [normalizeDec_lower hmapchars,
      map_ofNat_toNat fun b hb => by have := hc_ascii b hb; omega]
  have hceven : c.length % 2 = 0 := by
    rw [hc_len, hslen]
    exact heven
  simp only [decrypt, hraw]
  rw [if_neg (by omega), hdecnorm]
  simp only [hc_dec, hs]
  rw [if_pos (validUtf8_ascii fun b hb => ?_)]
  rw [hs] at hmem
  have := hrange b (hmem b hb)
  omega

set_option maxRecDepth 10000 in
/-- C4 amended witness: keyword "playfair", plaintext "hi", pad 'x'. -/
theorem encrypt_decrypt_roundtrip_witness :
    (∀ c ∈ ("playfair".toList), c.toNat < 128) ∧
      (∀ c ∈ ("hi".toList), 97 ≤ c.toNat ∧ c.toNat ≤ 122 ∧ c.toNat ≠ 106) ∧
      ("hi".toList).length % 2 = 0 ∧
      (∀ i, i < ("hi".toList).length → i % 2 = 0 →
        ("hi".toList)[i]? ≠ ("hi".toList)[i + 1]?) ∧
      ∃ c, encrypt ("playfair".toList) ("hi".toList) 'x' = .ok c ∧
        decrypt ("playfair".toList) (c.map Char.ofNat) =
          .ok (("hi".toList).map Char.toNat) :=
  ⟨by decide, by decide, by decide, by decide,
    encrypt_decrypt_roundtrip 'x' (by decide) (by decide) (by decide) (by decide)⟩

end Playfair
